import Mathlib

/-!
The image-storage delta tracker of kubecon/main.go.

A shallow embedding of `checkImageStorage` (kubecon/main.go, lines 135-156) and of
the package-level `imageCapacity` map it reads and writes, together with the
properties of the tracker.

* Go `int64` values are integers, the addition wrapping in two's complement.
* A Go `map[string]int64` is either the nil map or a partial function from names
  to values; reading a nil map finds nothing, writing to it panics.
* `humanize.Bytes` belongs to an external library; it is a parameter.
-/

namespace Kubecon

/-! ## Machine integers -/

/-- Reduction of an integer to the signed 64-bit range (two's complement). -/
def wrap64 (x : Int) : Int := (x + 2 ^ 63) % 2 ^ 64 - 2 ^ 63

/-- Go `int64` addition, `a + b`. -/
def add64 (a b : Int) : Int := wrap64 (a + b)

/-- Go conversion `uint64(x)` of an `int64`. -/
def toUint64 (x : Int) : Nat := (x % 2 ^ 64).toNat

/-- The values an `int64` can hold. -/
def inInt64 (x : Int) : Prop := -(2 ^ 63) ≤ x ∧ x < 2 ^ 63

instance (x : Int) : Decidable (inInt64 x) := by unfold inInt64; infer_instance

/-! ## The node objects (k8s.io/api/core/v1), restricted to the fields read -/

/-- The type `v1.ContainerImage`. -/
structure ContainerImage where
  Names : List String
  SizeBytes : Int

/-- The type `v1.NodeStatus`; only `Images` is read. -/
structure NodeStatus where
  Images : List ContainerImage

/-- The type `v1.Node`: the object name, further metadata, the status. -/
structure Node where
  Name : String
  Annotations : List (String × String)
  Status : NodeStatus

/-! ## Go maps -/

/-- A `map[string]int64`: `none` is the nil map, `some f` an initialised map with
entries `f`. -/
abbrev GoMap := Option (String → Option Int)

/-- The result of `make(map[string]int64)`: an initialised map without entries. -/
def GoMap.make : GoMap := some (fun _ => none)

/-- The entry of a map under a key, if there is one. -/
def GoMap.entry (m : GoMap) (k : String) : Option Int :=
  match m with
  | none => none
  | some f => f k

/-- The comma-ok read `v, ok := m[k]`: the zero value and `false` when absent. -/
def GoMap.lookup (m : GoMap) (k : String) : Int × Bool :=
  match m.entry k with
  | some v => (v, true)
  | none => (0, false)

/-- The plain read `m[k]`. -/
def GoMap.index (m : GoMap) (k : String) : Int := (m.lookup k).1

/-- The write `m[k] = v`; `none` when the map is nil (the write panics). -/
def GoMap.assign (m : GoMap) (k : String) (v : Int) : Option GoMap :=
  match m with
  | none => none
  | some f => some (some (fun j => if j = k then some v else f j))

/-! ## checkImageStorage -/

/-- The two `logrus.Infof` lines of `checkImageStorage`, by their arguments. -/
inductive LogLine where
  | changed (name : String) (old new : String)
  | noChanges (name : String)
  deriving DecidableEq, Repr

/-- The runtime panic `assignment to entry in nil map`, with the line logged before it. -/
structure Panic where
  logged : LogLine
  deriving DecidableEq, Repr

/-- A completed call: the line it logged and `imageCapacity` afterwards. -/
structure Result where
  logged : LogLine
  imageCapacity : GoMap

/-- Lines 137-141: `storage` after the loop over `node.Status.Images`. -/
def imageStorage (node : Node) : Int :=
  node.Status.Images.foldl (fun storage image => add64 storage image.SizeBytes) 0

/-- Lines 142-147: the flag `changed`. -/
def storageChanged (imageCapacity : GoMap) (node : Node) : Bool :=
  if (imageCapacity.lookup node.Name).2 then
    if imageCapacity.index node.Name = imageStorage node then false else true
  else true

/-- The function `checkImageStorage(node)` on the global `imageCapacity`;
`humanizeBytes` stands for `humanize.Bytes`. -/
def checkImageStorage (humanizeBytes : Nat → String) (imageCapacity : GoMap) (node : Node) :
    Except Panic Result :=
  let storage := imageStorage node
  if storageChanged imageCapacity node then
    let line := LogLine.changed node.Name
      (humanizeBytes (toUint64 (imageCapacity.index node.Name)))
      (humanizeBytes (toUint64 storage))
    match imageCapacity.assign node.Name storage with
    | some m => .ok ⟨line, m⟩
    | none => .error ⟨line⟩
  else
    .ok ⟨LogLine.noChanges node.Name, imageCapacity⟩

/-- The global `imageCapacity` once a call is over: what a completed call left, and
the map as it was when the call panicked (the faulting write stores nothing). -/
def imageCapacityAfter (before : GoMap) (outcome : Except Panic Result) : GoMap :=
  match outcome with
  | .ok r => r.imageCapacity
  | .error _ => before

/-- Calls of `checkImageStorage` one after another, as in the loop of `pollNodes`
(lines 128-130); a panic ends the run. -/
def checkNodes (humanizeBytes : Nat → String) (imageCapacity : GoMap) :
    List Node → Except Panic GoMap
  | [] => .ok imageCapacity
  | node :: rest =>
    match checkImageStorage humanizeBytes imageCapacity node with
    | .ok r => checkNodes humanizeBytes r.imageCapacity rest
    | .error p => .error p

/-- The exact (unbounded) sum of the image sizes of a node. -/
def exactStorage (node : Node) : Int :=
  (node.Status.Images.map ContainerImage.SizeBytes).sum

/-- The last node of a sequence that carries a given name. -/
def lastNamed (name : String) (nodes : List Node) : Option Node :=
  nodes.reverse.find? (fun n => n.Name = name)

/-- A stand-in for the external `humanize.Bytes` in the worked examples: the count it
is handed, followed by `B`. That is not the text `humanize.Bytes` prints for a large
count, which it rounds; in an example it shows which count is handed to the renderer. -/
def plainBytes (n : Nat) : String := toString n ++ " B"

/-- The node of the worked example: two images of 100 and 200 bytes. -/
def nodeN1 : Node :=
  ⟨"n1", [], ⟨[⟨["img-a"], 100⟩, ⟨["img-b"], 200⟩]⟩⟩

/-- The node of the worked example after its images changed to one of 150 bytes. -/
def nodeN1Later : Node :=
  ⟨"n1", [("checked", "true")], ⟨[⟨["img-a"], 150⟩]⟩⟩

/-- The node of the worked example with its images listed the other way round. -/
def nodeN1Swapped : Node :=
  ⟨"n1", [("checked", "true")], ⟨[⟨["img-b:v2"], 200⟩, ⟨[], 100⟩]⟩⟩

/-- A second node, with no images. -/
def nodeN2 : Node :=
  ⟨"n2", [], ⟨[]⟩⟩

/-- A node that reports an image of negative size. -/
def nodeNegative : Node :=
  ⟨"n3", [], ⟨[⟨["img-c"], -5⟩]⟩⟩

/-- A node without a name and without images. -/
def nodeNameless : Node :=
  ⟨"", [], ⟨[]⟩⟩

/-- A node whose two image sizes add up to 2^63, one more than the largest `int64`. -/
def nodeHuge : Node :=
  ⟨"n4", [], ⟨[⟨["img-d"], 9223372036854775807⟩, ⟨["img-e"], 1⟩]⟩⟩

/-- An initialised map whose only entry is 300 under `n1`. -/
def mapN1 : GoMap := some (fun j => if j = "n1" then some 300 else none)

/-- The node `n3` with one image of 7 bytes. -/
def nodeN3Seven : Node :=
  ⟨"n3", [], ⟨[⟨["img-c"], 7⟩]⟩⟩

/-- A node whose two image sizes, -2^63 and -1, add up to one less than the smallest
`int64`. -/
def nodeNegativeHuge : Node :=
  ⟨"n5", [], ⟨[⟨["img-f"], -9223372036854775808⟩, ⟨["img-g"], -1⟩]⟩⟩

/-- An initialised map whose only entry is 150 under `n1`. -/
def mapN1Later : GoMap := some (fun j => if j = "n1" then some 150 else none)

/-- An initialised map whose only entry is -5 under `n3`, as a call for `nodeNegative`
leaves it. -/
def mapN3 : GoMap := some (fun j => if j = "n3" then some (-5) else none)

/-- An initialised map whose only entry is -2^63 under `n4`, as a call for `nodeHuge`
leaves it. -/
def mapN4 : GoMap := some (fun j => if j = "n4" then some (-9223372036854775808) else none)

/-! ## Lemmas on the integers and on maps -/

theorem wrap64_add_left (a b : Int) : wrap64 (wrap64 a + b) = wrap64 (a + b) := by
  unfold wrap64; omega

theorem inInt64_wrap64 (x : Int) : inInt64 (wrap64 x) := by
  unfold inInt64 wrap64; omega

theorem wrap64_ne_of_not_inInt64 (x : Int) (hx : ¬ inInt64 x) : wrap64 x ≠ x := by
  intro heq
  exact hx (heq ▸ inInt64_wrap64 x)

theorem foldl_add64 (images : List ContainerImage) (acc : Int) :
    images.foldl (fun storage image => add64 storage image.SizeBytes) (wrap64 acc)
      = wrap64 (acc + (images.map ContainerImage.SizeBytes).sum) := by
  induction images generalizing acc with
  | nil => simp
  | cons image rest ih =>
    simp only [List.foldl_cons, List.map_cons, List.sum_cons]
    have hstep : add64 (wrap64 acc) image.SizeBytes = wrap64 (acc + image.SizeBytes) :=
      wrap64_add_left acc image.SizeBytes
    rw [hstep, ih, add_assoc]

theorem imageStorage_eq_wrap64 (node : Node) : imageStorage node = wrap64 (exactStorage node) := by
  have h := foldl_add64 node.Status.Images 0
  have h0 : wrap64 0 = 0 := by decide
  rw [h0] at h
  simpa [imageStorage, exactStorage] using h

theorem imageStorage_perm (a b : Node)
    (hperm : (a.Status.Images.map ContainerImage.SizeBytes).Perm
      (b.Status.Images.map ContainerImage.SizeBytes)) :
    imageStorage a = imageStorage b := by
  rw [imageStorage_eq_wrap64, imageStorage_eq_wrap64]
  unfold exactStorage
  rw [hperm.sum_eq]

/-- What a call does on an initialised map, by whether the recorded value equals the
aggregate. -/
theorem checkImageStorage_some (hb : Nat → String) (f : String → Option Int) (node : Node) :
    checkImageStorage hb (some f) node =
      if f node.Name = some (imageStorage node) then
        .ok ⟨LogLine.noChanges node.Name, some f⟩
      else
        .ok ⟨LogLine.changed node.Name
            (hb (toUint64 (GoMap.index (some f) node.Name)))
            (hb (toUint64 (imageStorage node))),
          some (fun j => if j = node.Name then some (imageStorage node) else f j)⟩ := by
  unfold checkImageStorage storageChanged GoMap.index GoMap.lookup GoMap.entry GoMap.assign
  cases hf : f node.Name with
  | none => simp [hf]
  | some p =>
    by_cases hp : p = imageStorage node
    · simp [hf, hp]
    · simp [hf, hp]

/-- What a call does on the nil map. -/
theorem checkImageStorage_nil (hb : Nat → String) (node : Node) :
    checkImageStorage hb none node =
      .error ⟨LogLine.changed node.Name (hb (toUint64 0)) (hb (toUint64 (imageStorage node)))⟩ := by
  simp [checkImageStorage, storageChanged, GoMap.index, GoMap.lookup, GoMap.entry, GoMap.assign]

theorem toUint64_cast (x : Int) : (toUint64 x : Int) = x % 2 ^ 64 := by
  unfold toUint64; omega

/-- The aggregate of the loop is a signed 64-bit value that differs from the exact sum of
the sizes by a multiple of 2^64. -/
theorem imageStorage_spec (node : Node) :
    -(2 ^ 63) ≤ imageStorage node ∧ imageStorage node < 2 ^ 63 ∧
      (exactStorage node - imageStorage node) % 2 ^ 64 = 0 := by
  rw [imageStorage_eq_wrap64]
  unfold wrap64
  omega

/-- There is one such value only. -/
theorem imageStorage_unique (node : Node) (s : Int) (hlo : -(2 ^ 63) ≤ s) (hhi : s < 2 ^ 63)
    (hsum : (exactStorage node - s) % 2 ^ 64 = 0) : imageStorage node = s := by
  rw [imageStorage_eq_wrap64]
  unfold wrap64
  omega

/-- A node followed by no node of the same name is the last of its name. -/
theorem lastNamed_split (before after : List Node) (n : Node)
    (hafter : ∀ x ∈ after, x.Name ≠ n.Name) :
    lastNamed n.Name (before ++ n :: after) = some n := by
  unfold lastNamed
  have hnone : List.find? (fun x => decide (x.Name = n.Name)) after.reverse = none := by
    rw [List.find?_eq_none]
    intro x hx
    simpa using hafter x (List.mem_reverse.1 hx)
  rw [List.reverse_append, List.reverse_cons, List.append_assoc, List.find?_append, hnone]
  simp

theorem checkImageStorage_ok_of_init (hb : Nat → String) (m : GoMap) (node : Node)
    (hinit : m ≠ none) : ∃ r, checkImageStorage hb m node = .ok r := by
  cases m with
  | none => exact absurd rfl hinit
  | some f =>
    rw [checkImageStorage_some]
    split
    · exact ⟨_, rfl⟩
    · exact ⟨_, rfl⟩

/-- After a completed call the map holds the aggregate under the name of the node. -/
theorem entry_after_ok (hb : Nat → String) (m : GoMap) (node : Node) (r : Result)
    (hok : checkImageStorage hb m node = .ok r) :
    r.imageCapacity.entry node.Name = some (imageStorage node) := by
  cases m with
  | none => rw [checkImageStorage_nil] at hok; cases hok
  | some f =>
    rw [checkImageStorage_some] at hok
    split at hok
    · next heq => cases hok; exact heq
    · cases hok; simp [GoMap.entry]

/-- A completed call on an initialised map leaves an initialised map that holds the
aggregate under the name of the node and is otherwise as before. -/
theorem checkImageStorage_entries (hb : Nat → String) (f : String → Option Int) (node : Node) :
    ∃ line g, checkImageStorage hb (some f) node = .ok ⟨line, some g⟩ ∧
      ∀ k, g k = if k = node.Name then some (imageStorage node) else f k := by
  rw [checkImageStorage_some]
  split
  · next heq =>
    refine ⟨_, f, rfl, ?_⟩
    intro k
    by_cases hk : k = node.Name
    · simp [hk, heq]
    · simp [hk]
  · exact ⟨_, _, rfl, fun _ => rfl⟩

theorem lastNamed_cons (name : String) (node : Node) (rest : List Node) :
    lastNamed name (node :: rest) =
      match lastNamed name rest with
      | some n => some n
      | none => if node.Name = name then some node else none := by
  unfold lastNamed
  rw [List.reverse_cons, List.find?_append]
  cases List.find? (fun n => decide (n.Name = name)) rest.reverse with
  | some n => simp
  | none =>
    by_cases hn : node.Name = name
    · simp [hn]
    · simp [hn]

/-- A run over a sequence of nodes from an initialised map completes; a name carried
by some node of the sequence ends with the aggregate of the last such node, any other
name keeps its entry. -/
theorem checkNodes_entries (hb : Nat → String) (nodes : List Node) (f : String → Option Int) :
    ∃ g, checkNodes hb (some f) nodes = .ok (some g) ∧
      ∀ name, g name =
        match lastNamed name nodes with
        | some n => some (imageStorage n)
        | none => f name := by
  induction nodes generalizing f with
  | nil => exact ⟨f, rfl, fun _ => rfl⟩
  | cons node rest ih =>
    obtain ⟨line, f1, hcall, hf1⟩ := checkImageStorage_entries hb f node
    obtain ⟨g, hrun, hg⟩ := ih f1
    refine ⟨g, ?_, ?_⟩
    · simp only [checkNodes, hcall]
      exact hrun
    · intro name
      rw [hg name, lastNamed_cons]
      cases lastNamed name rest with
      | some n => rfl
      | none =>
        by_cases hn : node.Name = name
        · subst hn
          simp [hf1]
        · have hn2 : ¬ name = node.Name := fun h => hn h.symm
          simp [hn, hf1, hn2]

theorem lastNamed_isSome (name : String) (nodes : List Node) :
    (lastNamed name nodes).isSome ↔ ∃ n ∈ nodes, n.Name = name := by
  unfold lastNamed
  rw [List.find?_isSome]
  simp

/-- The node that `lastNamed` finds carries the name and no later node of the sequence
does. -/
theorem lastNamed_is_last (name : String) (nodes : List Node) (n : Node)
    (hlast : lastNamed name nodes = some n) :
    n.Name = name ∧ ∃ before after, nodes = before ++ n :: after ∧
      ∀ x ∈ after, x.Name ≠ name := by
  induction nodes with
  | nil => simp [lastNamed] at hlast
  | cons node rest ih =>
    rw [lastNamed_cons] at hlast
    cases hrest : lastNamed name rest with
    | some n2 =>
      rw [hrest] at hlast
      cases hlast
      obtain ⟨hname, before, after, hsplit, hafter⟩ := ih hrest
      exact ⟨hname, node :: before, after, by simp [hsplit], hafter⟩
    | none =>
      rw [hrest] at hlast
      by_cases hn : node.Name = name
      · simp [hn] at hlast
        subst hlast
        refine ⟨hn, [], rest, rfl, ?_⟩
        intro x hx hxname
        have hsome : (lastNamed name rest).isSome := (lastNamed_isSome name rest).2 ⟨x, hx, hxname⟩
        rw [hrest] at hsome
        cases hsome
      · simp [hn] at hlast

/-! ## The properties of the tracker -/

/-- C1 (counterexample): three calls in a state where the name has no entry. While
`imageCapacity` is still the nil map, the call for `n1` (100 and 200 bytes) takes the
changed branch and logs old 0 and new 300, but panics at the write, so the map holds
nothing under `n1`. On the map made by `watchNodes`, the call for `n3`, whose sum is -5,
hands 2^64 - 5 to the renderer as new value, not the sum; and the call for `n4`, whose
sum is 2^63, records -2^63, not the sum. -/
theorem first_observation_nil_negative_overflow :
    (GoMap.entry none nodeN1.Name = none ∧
      storageChanged none nodeN1 = true ∧
      checkImageStorage plainBytes none nodeN1
        = .error ⟨LogLine.changed "n1" (plainBytes 0) (plainBytes 300)⟩ ∧
      GoMap.entry (imageCapacityAfter none (checkImageStorage plainBytes none nodeN1))
        nodeN1.Name = none) ∧
    (GoMap.make.entry nodeNegative.Name = none ∧
      exactStorage nodeNegative = -5 ∧
      (∀ hb : Nat → String, ∃ r, checkImageStorage hb GoMap.make nodeNegative = .ok r ∧
        r.logged = LogLine.changed "n3" (hb 0) (hb 18446744073709551611))) ∧
    (GoMap.make.entry nodeHuge.Name = none ∧
      exactStorage nodeHuge = 9223372036854775808 ∧
      ∃ r, checkImageStorage plainBytes GoMap.make nodeHuge = .ok r ∧
        r.imageCapacity.entry nodeHuge.Name = some (-9223372036854775808)) := by
  refine ⟨⟨rfl, rfl, rfl, ?_⟩, ⟨rfl, by decide, fun hb => ⟨_, rfl, rfl⟩⟩,
    ⟨rfl, by decide, ⟨_, rfl, rfl⟩⟩⟩
  rw [checkImageStorage_nil]
  rfl

/-- C1 (amended): for every initialised state of `imageCapacity` in which `node.Name` has
no entry, and every node, `checkImageStorage` takes the changed branch and completes. It
records under `node.Name` the sum of the `SizeBytes` reduced to `int64`: a signed 64-bit
value `s` that differs from the exact sum by a multiple of 2^64, hence the exact sum
whenever that is a signed 64-bit value. It logs old value 0 and as new value
`uint64(s)`, which is `s` whenever `s` is not negative. -/
theorem checkImageStorage_first_observation (hb : Nat → String) (m : GoMap) (node : Node)
    (hinit : m ≠ none) (habsent : m.entry node.Name = none) :
    storageChanged m node = true ∧
    ∃ (r : Result) (s : Int) (n : Nat),
      checkImageStorage hb m node = .ok r ∧
      r.logged = LogLine.changed node.Name (hb 0) (hb n) ∧
      r.imageCapacity.entry node.Name = some s ∧
      -(2 ^ 63) ≤ s ∧ s < 2 ^ 63 ∧ (exactStorage node - s) % 2 ^ 64 = 0 ∧
      (n : Int) = s % 2 ^ 64 ∧
      (-(2 ^ 63) ≤ exactStorage node → exactStorage node < 2 ^ 63 → s = exactStorage node) ∧
      (0 ≤ s → (n : Int) = s) := by
  cases m with
  | none => exact absurd rfl hinit
  | some f =>
    have hf : f node.Name = none := habsent
    obtain ⟨hlo, hhi, hsum⟩ := imageStorage_spec node
    have hcast := toUint64_cast (imageStorage node)
    refine ⟨?_, ⟨_, some (fun j => if j = node.Name then some (imageStorage node) else f j)⟩,
      imageStorage node, toUint64 (imageStorage node), ?_, rfl, ?_, hlo, hhi, hsum, hcast, ?_, ?_⟩
    · simp [storageChanged, GoMap.lookup, GoMap.entry, hf]
    · rw [checkImageStorage_some]
      have hzero : toUint64 0 = 0 := by decide
      simp [hf, GoMap.index, GoMap.lookup, GoMap.entry, hzero]
    · simp [GoMap.entry]
    · intro h1 h2
      omega
    · intro h0
      omega

/-- C1 (witness): the first call for `n1` (100 and 200 bytes) on the map made by
`watchNodes` logs old 0 and new 300 and records 300. -/
theorem checkImageStorage_first_observation_witness :
    GoMap.make ≠ none ∧ GoMap.make.entry nodeN1.Name = none ∧
    imageStorage nodeN1 = 300 ∧ toUint64 300 = 300 ∧
    storageChanged GoMap.make nodeN1 = true ∧
    ∃ r, checkImageStorage plainBytes GoMap.make nodeN1 = .ok r ∧
      r.logged = LogLine.changed "n1" (plainBytes 0) (plainBytes 300) ∧
      r.imageCapacity.entry "n1" = some 300 := by
  obtain ⟨hchanged, r, s, n, hcall, hlog, hentry, hlo, hhi, hsum, hn, _, _⟩ :=
    checkImageStorage_first_observation plainBytes GoMap.make nodeN1 (by simp [GoMap.make]) rfl
  have hexact : exactStorage nodeN1 = 300 := by decide
  rw [hexact] at hsum
  have hs : s = 300 := by omega
  subst hs
  have hn300 : n = 300 := by omega
  subst hn300
  exact ⟨by simp [GoMap.make], rfl, by decide, by decide, hchanged, r, hcall, hlog, hentry⟩

/-- C2 (counterexample): two calls in a state where the name has an entry. With -5
recorded under `n3`, the call for `n3` with one image of 7 bytes hands 2^64 - 5 to the
renderer as old value, not -5. With -2^63 recorded under `n4`, the call for `n4`, whose
image sizes add up to 2^63, takes the no-changes branch and leaves the map as it was. -/
theorem changed_old_value_and_overflow :
    (mapN3.entry nodeN3Seven.Name = some (-5) ∧
      exactStorage nodeN3Seven = 7 ∧
      (∀ hb : Nat → String, ∃ r, checkImageStorage hb mapN3 nodeN3Seven = .ok r ∧
        r.logged = LogLine.changed "n3" (hb 18446744073709551611) (hb 7))) ∧
    (mapN4.entry nodeHuge.Name = some (-9223372036854775808) ∧
      exactStorage nodeHuge = 9223372036854775808 ∧
      storageChanged mapN4 nodeHuge = false ∧
      checkImageStorage plainBytes mapN4 nodeHuge = .ok ⟨LogLine.noChanges "n4", mapN4⟩) :=
  ⟨⟨rfl, by decide, fun hb => ⟨_, rfl, rfl⟩⟩, ⟨rfl, by decide, rfl, rfl⟩⟩

/-- C2 (amended): for every state of `imageCapacity` in which `node.Name` has an entry
`p`, and every node whose aggregate `s` differs from `p`, where the aggregate is the sum
of the `SizeBytes` reduced to `int64` (the signed 64-bit value that differs from the
exact sum by a multiple of 2^64, hence the exact sum whenever that is a signed 64-bit
value), `checkImageStorage` takes the changed branch and completes, logs `uint64(p)` as
old and `uint64(s)` as new value, which are `p` and `s` whenever these are not negative,
and afterwards the map holds `s`, and no longer `p`, under `node.Name`. -/
theorem checkImageStorage_changed (hb : Nat → String) (m : GoMap) (node : Node) (p s : Int)
    (hentry : m.entry node.Name = some p)
    (hlo : -(2 ^ 63) ≤ s) (hhi : s < 2 ^ 63)
    (hsum : (exactStorage node - s) % 2 ^ 64 = 0)
    (hdiff : s ≠ p) :
    storageChanged m node = true ∧
    (-(2 ^ 63) ≤ exactStorage node → exactStorage node < 2 ^ 63 → s = exactStorage node) ∧
    ∃ (r : Result) (o n : Nat),
      checkImageStorage hb m node = .ok r ∧
      r.logged = LogLine.changed node.Name (hb o) (hb n) ∧
      (o : Int) = p % 2 ^ 64 ∧ (n : Int) = s % 2 ^ 64 ∧
      (0 ≤ p → p < 2 ^ 64 → (o : Int) = p) ∧ (0 ≤ s → (n : Int) = s) ∧
      r.imageCapacity.entry node.Name = some s ∧
      r.imageCapacity.entry node.Name ≠ some p := by
  have hagg : imageStorage node = s := imageStorage_unique node s hlo hhi hsum
  cases m with
  | none => simp [GoMap.entry] at hentry
  | some f =>
    have hf : f node.Name = some p := hentry
    have hne : ¬ p = s := fun h => hdiff h.symm
    have ho := toUint64_cast p
    have hn := toUint64_cast s
    refine ⟨?_, ?_, ⟨_, some (fun j => if j = node.Name then some s else f j)⟩,
      toUint64 p, toUint64 s, ?_, rfl, ho, hn, ?_, ?_, ?_, ?_⟩
    · simp [storageChanged, GoMap.index, GoMap.lookup, GoMap.entry, hf, hagg, hne]
    · intro h1 h2
      omega
    · rw [checkImageStorage_some]
      simp [hf, hagg, hne, GoMap.index, GoMap.lookup, GoMap.entry]
    · intro h1 h2
      omega
    · intro h0
      omega
    · simp [GoMap.entry]
    · simp [GoMap.entry, hdiff]

/-- C2 (witness): `n1` is recorded with 150 and now reports images of 100 and 200
bytes: the call logs old 150 and new 300 and records 300. -/
theorem checkImageStorage_changed_witness :
    mapN1Later.entry nodeN1.Name = some 150 ∧ exactStorage nodeN1 = 300 ∧
    imageStorage nodeN1 = 300 ∧ toUint64 150 = 150 ∧ toUint64 300 = 300 ∧
    storageChanged mapN1Later nodeN1 = true ∧
    ∃ r, checkImageStorage plainBytes mapN1Later nodeN1 = .ok r ∧
      r.logged = LogLine.changed "n1" (plainBytes 150) (plainBytes 300) ∧
      r.imageCapacity.entry "n1" = some 300 ∧
      r.imageCapacity.entry "n1" ≠ some 150 := by
  obtain ⟨hchanged, _, r, o, n, hcall, hlog, ho, hn, _, _, hnew, hold⟩ :=
    checkImageStorage_changed plainBytes mapN1Later nodeN1 150 300 rfl (by decide) (by decide)
      (by decide) (by decide)
  have ho150 : o = 150 := by omega
  have hn300 : n = 300 := by omega
  subst ho150
  subst hn300
  exact ⟨rfl, by decide, by decide, by decide, by decide, hchanged, r, hcall, hlog, hnew, hold⟩

/-- C3: in every state of `imageCapacity` in which `node.Name` has an entry equal to the
aggregate of the node, `checkImageStorage` takes the no-changes branch and returns the
map as it was; so a second call with the same node, right after a completed first one,
logs no change and leaves the map as the first call left it; on an initialised map the
first call does complete. -/
theorem checkImageStorage_unchanged (hb : Nat → String) (m : GoMap) (node : Node) :
    (m.entry node.Name = some (imageStorage node) →
      storageChanged m node = false ∧
      checkImageStorage hb m node = .ok ⟨LogLine.noChanges node.Name, m⟩) ∧
    (∀ first, checkImageStorage hb m node = .ok first →
      storageChanged first.imageCapacity node = false ∧
      checkImageStorage hb first.imageCapacity node
        = .ok ⟨LogLine.noChanges node.Name, first.imageCapacity⟩) ∧
    (m ≠ none → ∃ first, checkImageStorage hb m node = .ok first) := by
  have hsame : ∀ t : GoMap, t.entry node.Name = some (imageStorage node) →
      storageChanged t node = false ∧
      checkImageStorage hb t node = .ok ⟨LogLine.noChanges node.Name, t⟩ := by
    intro t ht
    cases t with
    | none => simp [GoMap.entry] at ht
    | some f =>
      have hf : f node.Name = some (imageStorage node) := ht
      refine ⟨?_, ?_⟩
      · simp [storageChanged, GoMap.index, GoMap.lookup, GoMap.entry, hf]
      · rw [checkImageStorage_some]; simp [hf]
  refine ⟨hsame m, ?_, checkImageStorage_ok_of_init hb m node⟩
  intro first hfirst
  exact hsame first.imageCapacity (entry_after_ok hb m node first hfirst)

/-- C3 (witness): `n1` is recorded with 300 and reports 100 + 200 bytes again; and two
calls in a row for `n1` on the map made by `watchNodes`. -/
theorem checkImageStorage_unchanged_witness :
    (mapN1.entry nodeN1.Name = some (imageStorage nodeN1) ∧
      storageChanged mapN1 nodeN1 = false ∧
      checkImageStorage plainBytes mapN1 nodeN1 = .ok ⟨LogLine.noChanges nodeN1.Name, mapN1⟩) ∧
    (GoMap.make ≠ none ∧
      ∃ first, checkImageStorage plainBytes GoMap.make nodeN1 = .ok first ∧
        storageChanged first.imageCapacity nodeN1 = false ∧
        checkImageStorage plainBytes first.imageCapacity nodeN1
          = .ok ⟨LogLine.noChanges nodeN1.Name, first.imageCapacity⟩) := by
  refine ⟨⟨by decide, (checkImageStorage_unchanged plainBytes mapN1 nodeN1).1 (by decide)⟩,
    by simp [GoMap.make], ?_⟩
  obtain ⟨_, htwice, hfirst⟩ := checkImageStorage_unchanged plainBytes GoMap.make nodeN1
  obtain ⟨first, hcall⟩ := hfirst (by simp [GoMap.make])
  exact ⟨first, hcall, htwice first hcall⟩

/-- C10: `checkImageStorage` panics exactly when `imageCapacity` is the nil map. On the
nil map the name is absent, the changed branch is taken (old value 0) and the write
faults; on an initialised map the call completes for every node. -/
theorem checkImageStorage_panics_iff_nil (hb : Nat → String) (m : GoMap) (node : Node) :
    ((∃ p, checkImageStorage hb m node = .error p) ↔ m = none) ∧
    (m = none →
      m.entry node.Name = none ∧ storageChanged m node = true ∧
      m.assign node.Name (imageStorage node) = none ∧
      checkImageStorage hb m node = .error ⟨LogLine.changed node.Name (hb (toUint64 0))
        (hb (toUint64 (imageStorage node)))⟩) ∧
    (m ≠ none → ∃ r, checkImageStorage hb m node = .ok r) := by
  refine ⟨⟨?_, ?_⟩, ?_, checkImageStorage_ok_of_init hb m node⟩
  · rintro ⟨p, hp⟩
    by_contra hne
    obtain ⟨r, hr⟩ := checkImageStorage_ok_of_init hb m node hne
    rw [hr] at hp
    cases hp
  · rintro rfl
    exact ⟨_, checkImageStorage_nil hb node⟩
  · rintro rfl
    exact ⟨rfl, rfl, rfl, checkImageStorage_nil hb node⟩

/-- C10 (witness): the nil map against the map made by `watchNodes`, for the node `n1`. -/
theorem checkImageStorage_panics_iff_nil_witness :
    (∃ p, checkImageStorage plainBytes none nodeN1 = .error p) ∧
    (∃ r, checkImageStorage plainBytes GoMap.make nodeN1 = .ok r) :=
  ⟨((checkImageStorage_panics_iff_nil plainBytes none nodeN1).1).2 rfl,
    (checkImageStorage_panics_iff_nil plainBytes GoMap.make nodeN1).2.2 (by simp [GoMap.make])⟩

/-- C4 (counterexample): starting from the map made by `watchNodes`, the sequence that
consists of the node `n4` alone, whose image sizes add up to 2^63, ends with the entry
-2^63 under `n4`, not with the sum of the sizes. -/
theorem checkNodes_overflow_entry :
    exactStorage nodeHuge = 9223372036854775808 ∧
    ∃ final, checkNodes plainBytes GoMap.make [nodeHuge] = .ok final ∧
      final.entry nodeHuge.Name = some (-9223372036854775808) :=
  ⟨by decide, ⟨_, rfl, rfl⟩⟩

/-- C4 (amended): for every finite sequence of nodes passed one after another to
`checkImageStorage`, starting from the empty map made by `watchNodes`, the run completes
and the final map has an entry for exactly the names that occur in the sequence; the
entry of a name is the sum of the image sizes of the last node of the sequence that
carries the name, reduced to `int64`: the signed 64-bit value that differs from the
exact sum by a multiple of 2^64, hence the exact sum whenever that is a signed 64-bit
value. -/
theorem checkNodes_last_write_wins (hb : Nat → String) (nodes : List Node) :
    ∃ final, checkNodes hb GoMap.make nodes = .ok final ∧ final ≠ none ∧
      (∀ name, (final.entry name).isSome ↔ ∃ n ∈ nodes, n.Name = name) ∧
      (∀ before n after, nodes = before ++ n :: after → (∀ x ∈ after, x.Name ≠ n.Name) →
        ∃ s, final.entry n.Name = some s ∧
          -(2 ^ 63) ≤ s ∧ s < 2 ^ 63 ∧ (exactStorage n - s) % 2 ^ 64 = 0 ∧
          (-(2 ^ 63) ≤ exactStorage n → exactStorage n < 2 ^ 63 → s = exactStorage n)) ∧
      (∀ name, (∃ n ∈ nodes, n.Name = name) →
        ∃ before n after, nodes = before ++ n :: after ∧ n.Name = name ∧
          ∀ x ∈ after, x.Name ≠ name) := by
  obtain ⟨g, hrun, hg⟩ := checkNodes_entries hb nodes (fun _ => none)
  have hentry : ∀ name, GoMap.entry (some g) name = (lastNamed name nodes).map imageStorage := by
    intro name
    show g name = _
    rw [hg name]
    cases lastNamed name nodes <;> rfl
  refine ⟨some g, hrun, by simp, ?_, ?_, ?_⟩
  · intro name
    rw [hentry name, Option.isSome_map', lastNamed_isSome]
  · intro before n after hsplit hafter
    obtain ⟨hlo, hhi, hsum⟩ := imageStorage_spec n
    refine ⟨imageStorage n, ?_, hlo, hhi, hsum, ?_⟩
    · rw [hentry n.Name, hsplit, lastNamed_split before after n hafter]
      rfl
    · intro h1 h2
      omega
  · rintro name hocc
    have hsome := (lastNamed_isSome name nodes).2 hocc
    cases hlast : lastNamed name nodes with
    | none => rw [hlast] at hsome; cases hsome
    | some n =>
      obtain ⟨hname, before, after, hsplit, hafter⟩ := lastNamed_is_last name nodes n hlast
      exact ⟨before, n, after, hsplit, hname, hafter⟩

/-- C4 (witness): `n1` with one image of 150 bytes, then `n2` without images, then `n1`
with images of 100 and 200 bytes: the run ends with 300 under `n1`, 0 under `n2` and no
entry under `n3`. -/
theorem checkNodes_last_write_wins_witness :
    imageStorage nodeN1Later = 150 ∧ imageStorage nodeN2 = 0 ∧ imageStorage nodeN1 = 300 ∧
    ∃ final, checkNodes plainBytes GoMap.make [nodeN1Later, nodeN2, nodeN1] = .ok final ∧
      final.entry "n1" = some 300 ∧ final.entry "n2" = some 0 ∧ final.entry "n3" = none := by
  obtain ⟨final, hrun, _, hnames, hlast, _⟩ :=
    checkNodes_last_write_wins plainBytes [nodeN1Later, nodeN2, nodeN1]
  refine ⟨by decide, by decide, by decide, final, hrun, ?_, ?_, ?_⟩
  · obtain ⟨s, hs, hlo, hhi, hsum, _⟩ :=
      hlast [nodeN1Later, nodeN2] nodeN1 [] rfl (by simp)
    have hexact : exactStorage nodeN1 = 300 := by decide
    rw [hexact] at hsum
    have h300 : s = 300 := by omega
    rw [← h300]
    exact hs
  · obtain ⟨s, hs, hlo, hhi, hsum, _⟩ :=
      hlast [nodeN1Later] nodeN2 [nodeN1] rfl (by simp [nodeN1, nodeN2])
    have hexact : exactStorage nodeN2 = 0 := by decide
    rw [hexact] at hsum
    have h0 : s = 0 := by omega
    rw [← h0]
    exact hs
  · cases hn3 : final.entry "n3" with
    | none => rfl
    | some v =>
      have hsome : (final.entry "n3").isSome := by rw [hn3]; rfl
      obtain ⟨n, hmem, hname⟩ := (hnames "n3").1 hsome
      simp [nodeN1, nodeN1Later, nodeN2] at hmem
      rcases hmem with h | h | h <;> subst h <;> simp at hname

/-- C5 (counterexample): on the map made by `watchNodes`, the node `n3` with an image of
-5 bytes, the node with the empty name and the node `n5` with images of -2^63 and -1
bytes are processed like any other node: each call completes and writes an entry where
the map had none, -5 under `n3`, 0 under the empty name and 2^63 - 1 under `n5`. -/
theorem invalid_nodes_are_recorded :
    (∃ image ∈ nodeNegative.Status.Images, image.SizeBytes < 0) ∧
    nodeNameless.Name = "" ∧
    (∃ image ∈ nodeNegativeHuge.Status.Images, image.SizeBytes < 0) ∧
    GoMap.make.entry "n3" = none ∧ GoMap.make.entry "" = none ∧
    GoMap.make.entry "n5" = none ∧
    (∃ r, checkImageStorage plainBytes GoMap.make nodeNegative = .ok r ∧
      r.imageCapacity.entry "n3" = some (-5)) ∧
    (∃ r, checkImageStorage plainBytes GoMap.make nodeNameless = .ok r ∧
      r.logged = LogLine.changed "" (plainBytes 0) (plainBytes 0) ∧
      r.imageCapacity.entry "" = some 0) ∧
    (∃ r, checkImageStorage plainBytes GoMap.make nodeNegativeHuge = .ok r ∧
      r.imageCapacity.entry "n5" = some 9223372036854775807) :=
  ⟨⟨⟨["img-c"], -5⟩, by simp [nodeNegative], by decide⟩, rfl,
    ⟨⟨["img-g"], -1⟩, by simp [nodeNegativeHuge], by decide⟩, rfl, rfl, rfl,
    ⟨_, rfl, rfl⟩, ⟨_, rfl, rfl, rfl⟩, ⟨_, rfl, rfl⟩⟩

/-- C5 (amended): `checkImageStorage` validates nothing and has no error result. For
every node that has an image with a negative `SizeBytes`, and for every node whose
`Name` is the empty string, a call on an initialised map completes as for any other
node and leaves recorded under `node.Name` the sum of the `SizeBytes`, negative sizes
included, reduced to `int64`: the signed 64-bit value that differs from the exact sum by
a multiple of 2^64, hence the exact sum whenever that is a signed 64-bit value. The map
stays as it was exactly when it already held that value under `node.Name`. -/
theorem checkImageStorage_accepts_invalid (hb : Nat → String) (m : GoMap) (node : Node)
    (hinit : m ≠ none)
    (_hbad : (∃ image ∈ node.Status.Images, image.SizeBytes < 0) ∨ node.Name = "") :
    ∃ (r : Result) (s : Int), checkImageStorage hb m node = .ok r ∧
      r.imageCapacity.entry node.Name = some s ∧
      -(2 ^ 63) ≤ s ∧ s < 2 ^ 63 ∧ (exactStorage node - s) % 2 ^ 64 = 0 ∧
      (-(2 ^ 63) ≤ exactStorage node → exactStorage node < 2 ^ 63 → s = exactStorage node) ∧
      (r.imageCapacity = m ↔ m.entry node.Name = some s) := by
  obtain ⟨r, hr⟩ := checkImageStorage_ok_of_init hb m node hinit
  have hafter := entry_after_ok hb m node r hr
  obtain ⟨hlo, hhi, hsum⟩ := imageStorage_spec node
  refine ⟨r, imageStorage node, hr, hafter, hlo, hhi, hsum, ?_, ?_, ?_⟩
  · intro h1 h2
    omega
  · intro hsame
    rw [← hsame]
    exact hafter
  · intro hheld
    cases m with
    | none => simp [GoMap.entry] at hheld
    | some f =>
      have hf : f node.Name = some (imageStorage node) := hheld
      rw [checkImageStorage_some] at hr
      simp [hf] at hr
      rw [← hr]

/-- C5 (witness): on the map made by `watchNodes`, the call for the node `n3` with an
image of -5 bytes records -5, and the call for the node with the empty name records 0
under the empty name; both change the map. -/
theorem checkImageStorage_accepts_invalid_witness :
    GoMap.make ≠ none ∧
    ((∃ image ∈ nodeNegative.Status.Images, image.SizeBytes < 0) ∨ nodeNegative.Name = "") ∧
    ((∃ image ∈ nodeNameless.Status.Images, image.SizeBytes < 0) ∨ nodeNameless.Name = "") ∧
    imageStorage nodeNegative = -5 ∧ imageStorage nodeNameless = 0 ∧
    (∃ r, checkImageStorage plainBytes GoMap.make nodeNegative = .ok r ∧
      r.imageCapacity.entry "n3" = some (-5) ∧ r.imageCapacity ≠ GoMap.make) ∧
    (∃ r, checkImageStorage plainBytes GoMap.make nodeNameless = .ok r ∧
      r.imageCapacity.entry "" = some 0 ∧ r.imageCapacity ≠ GoMap.make) := by
  have hinit : GoMap.make ≠ none := by simp [GoMap.make]
  have hneg : (∃ image ∈ nodeNegative.Status.Images, image.SizeBytes < 0) ∨
      nodeNegative.Name = "" :=
    Or.inl ⟨⟨["img-c"], -5⟩, by simp [nodeNegative], by decide⟩
  have hnameless : (∃ image ∈ nodeNameless.Status.Images, image.SizeBytes < 0) ∨
      nodeNameless.Name = "" := Or.inr rfl
  refine ⟨hinit, hneg, hnameless, by decide, by decide, ?_, ?_⟩
  · obtain ⟨r, s, hcall, hentry, hlo, hhi, hsum, _, hsame⟩ :=
      checkImageStorage_accepts_invalid plainBytes GoMap.make nodeNegative hinit hneg
    have hexact : exactStorage nodeNegative = -5 := by decide
    rw [hexact] at hsum
    have hs : s = -5 := by omega
    subst hs
    refine ⟨r, hcall, hentry, ?_⟩
    intro heq
    have hheld := hsame.1 heq
    simp [GoMap.make, GoMap.entry, nodeNegative] at hheld
  · obtain ⟨r, s, hcall, hentry, hlo, hhi, hsum, _, hsame⟩ :=
      checkImageStorage_accepts_invalid plainBytes GoMap.make nodeNameless hinit hnameless
    have hexact : exactStorage nodeNameless = 0 := by decide
    rw [hexact] at hsum
    have hs : s = 0 := by omega
    subst hs
    refine ⟨r, hcall, hentry, ?_⟩
    intro heq
    have hheld := hsame.1 heq
    simp [GoMap.make, GoMap.entry, nodeNameless] at hheld

/-- C6 (counterexample): the node `n4` has two images of 2^63 - 1 bytes and 1 byte, each
an `int64`, that add up to 2^63, outside the signed 64-bit range. On the map made by
`watchNodes` the call completes and records the wrapped sum -2^63 under `n4`, where the
map had no entry. -/
theorem overflowing_sum_is_recorded_wrapped :
    (∀ image ∈ nodeHuge.Status.Images, inInt64 image.SizeBytes) ∧
    exactStorage nodeHuge = 9223372036854775808 ∧
    ¬ inInt64 (exactStorage nodeHuge) ∧
    GoMap.make.entry "n4" = none ∧
    ∃ r, checkImageStorage plainBytes GoMap.make nodeHuge = .ok r ∧
      r.logged = LogLine.changed "n4" (plainBytes 0) (plainBytes 9223372036854775808) ∧
      r.imageCapacity.entry "n4" = some (-9223372036854775808) :=
  ⟨by simp [nodeHuge]; decide, by decide, by decide, rfl, ⟨_, rfl, rfl, rfl⟩⟩

/-- C6 (amended): for every node whose image sizes add up to a value outside the signed
64-bit range, the `int64` accumulation wraps modulo 2^64: the aggregate is an `int64`
that differs from the exact sum by a multiple of 2^64, and not by 0; on an initialised
map `checkImageStorage` completes without an error and records that wrapped aggregate
under `node.Name`. -/
theorem checkImageStorage_wraps_on_overflow (hb : Nat → String) (m : GoMap) (node : Node)
    (hinit : m ≠ none) (hover : ¬ inInt64 (exactStorage node)) :
    inInt64 (imageStorage node) ∧
    (exactStorage node - imageStorage node) % 2 ^ 64 = 0 ∧
    imageStorage node ≠ exactStorage node ∧
    ∃ r, checkImageStorage hb m node = .ok r ∧
      r.imageCapacity.entry node.Name = some (imageStorage node) := by
  have hwrap := imageStorage_eq_wrap64 node
  refine ⟨hwrap ▸ inInt64_wrap64 _, ?_, ?_, ?_⟩
  · rw [hwrap]; unfold wrap64; omega
  · rw [hwrap]; exact wrap64_ne_of_not_inInt64 _ hover
  · obtain ⟨r, hr⟩ := checkImageStorage_ok_of_init hb m node hinit
    exact ⟨r, hr, entry_after_ok hb m node r hr⟩

/-- C6 (witness): the node `n4`, whose sizes add up to 2^63, on the map made by
`watchNodes`. -/
theorem checkImageStorage_wraps_on_overflow_witness :
    GoMap.make ≠ none ∧ ¬ inInt64 (exactStorage nodeHuge) ∧
    inInt64 (imageStorage nodeHuge) ∧
    (exactStorage nodeHuge - imageStorage nodeHuge) % 2 ^ 64 = 0 ∧
    imageStorage nodeHuge ≠ exactStorage nodeHuge ∧
    ∃ r, checkImageStorage plainBytes GoMap.make nodeHuge = .ok r ∧
      r.imageCapacity.entry nodeHuge.Name = some (imageStorage nodeHuge) :=
  ⟨by simp [GoMap.make], by decide,
    checkImageStorage_wraps_on_overflow plainBytes GoMap.make nodeHuge (by simp [GoMap.make])
      (by decide)⟩

/-- C7: for every state of the map and every two nodes with the same `Name` whose image
sizes are the same up to order, whatever the image names and the other metadata,
`checkImageStorage` computes the same aggregate, takes the same branch and gives the
same outcome, resulting map included. -/
theorem checkImageStorage_perm (hb : Nat → String) (m : GoMap) (a b : Node)
    (hname : a.Name = b.Name)
    (hperm : (a.Status.Images.map ContainerImage.SizeBytes).Perm
      (b.Status.Images.map ContainerImage.SizeBytes)) :
    imageStorage a = imageStorage b ∧
    storageChanged m a = storageChanged m b ∧
    checkImageStorage hb m a = checkImageStorage hb m b ∧
    imageCapacityAfter m (checkImageStorage hb m a)
      = imageCapacityAfter m (checkImageStorage hb m b) := by
  have hsum := imageStorage_perm a b hperm
  have hcall : checkImageStorage hb m a = checkImageStorage hb m b := by
    simp only [checkImageStorage, storageChanged, hname, hsum]
  refine ⟨hsum, ?_, hcall, by rw [hcall]⟩
  simp only [storageChanged, hname, hsum]

/-- C7 (witness): `n1` with images of 100 and 200 bytes, and `n1` with other image
names, other annotations and the sizes in the order 200, 100. -/
theorem checkImageStorage_perm_witness :
    nodeN1.Name = nodeN1Swapped.Name ∧
    (nodeN1.Status.Images.map ContainerImage.SizeBytes).Perm
      (nodeN1Swapped.Status.Images.map ContainerImage.SizeBytes) ∧
    imageStorage nodeN1 = imageStorage nodeN1Swapped ∧
    storageChanged mapN1 nodeN1 = storageChanged mapN1 nodeN1Swapped ∧
    checkImageStorage plainBytes mapN1 nodeN1 = checkImageStorage plainBytes mapN1 nodeN1Swapped ∧
    imageCapacityAfter mapN1 (checkImageStorage plainBytes mapN1 nodeN1)
      = imageCapacityAfter mapN1 (checkImageStorage plainBytes mapN1 nodeN1Swapped) :=
  ⟨rfl, List.Perm.swap 200 100 [],
    checkImageStorage_perm plainBytes mapN1 nodeN1 nodeN1Swapped rfl (List.Perm.swap 200 100 [])⟩

/-- C8: for every state of the map and every node, `checkImageStorage(node)` leaves the
entry of every name other than `node.Name` as it was, present or absent, and removes no
entry at all: a name that had an entry before the call has one after it. -/
theorem checkImageStorage_frame (hb : Nat → String) (m : GoMap) (node : Node) :
    (∀ k, k ≠ node.Name →
      (imageCapacityAfter m (checkImageStorage hb m node)).entry k = m.entry k) ∧
    (∀ k, (m.entry k).isSome →
      ((imageCapacityAfter m (checkImageStorage hb m node)).entry k).isSome) := by
  cases m with
  | none =>
    rw [checkImageStorage_nil]
    exact ⟨fun _ _ => rfl, fun _ hk => hk⟩
  | some f =>
    obtain ⟨line, g, hcall, hg⟩ := checkImageStorage_entries hb f node
    rw [hcall]
    refine ⟨?_, ?_⟩
    · intro k hk
      show g k = f k
      rw [hg k, if_neg hk]
    · intro k hsome
      show (g k).isSome
      rw [hg k]
      by_cases hk : k = node.Name
      · simp [hk]
      · rw [if_neg hk]; exact hsome

/-- C8 (witness): a call for `n2` leaves the entry 300 of `n1` in place. -/
theorem checkImageStorage_frame_witness :
    "n1" ≠ nodeN2.Name ∧ mapN1.entry "n1" = some 300 ∧
    (imageCapacityAfter mapN1 (checkImageStorage plainBytes mapN1 nodeN2)).entry "n1"
      = mapN1.entry "n1" :=
  ⟨by decide, rfl, (checkImageStorage_frame plainBytes mapN1 nodeN2).1 "n1" (by decide)⟩

end Kubecon
